import Mathlib

/-!
Shallow embedding of `App_ImageToDesmos.py`, the core pipeline
`bitmap_to_desmos_beziers` together with the preview sampling formula of
`draw_figure`.  Python floats are idealised as rationals; the fallible
`max()` call on a possibly empty sequence is modelled with `Option`.
-/

set_option autoImplicit false

namespace ImageToDesmos

/-- A tracer point `{x, y}` in the tracer's native coordinate space. -/
structure Pt where
  x : ℚ
  y : ℚ
deriving DecidableEq, Repr

/-- A potrace curve segment: either a corner (`seg.is_corner`, carrying
`seg.c` and `seg.end_point`) or a smooth segment (carrying `seg.c1`,
`seg.c2` and `seg.end_point`). -/
inductive Seg where
  | corner (c : Pt) (endPt : Pt)
  | smooth (c1 c2 : Pt) (endPt : Pt)
deriving DecidableEq, Repr

/-- `seg.end_point` of either segment variant. -/
def Seg.endPoint : Seg → Pt
  | .corner _ e => e
  | .smooth _ _ e => e

/-- One traced closed path: `curve.start_point` plus its ordered segments. -/
structure TracePath where
  start_point : Pt
  segs : List Seg
deriving DecidableEq, Repr

/-- The coordinates collected for the scale estimate from one segment,
lines 34-39: `pts = [start]`, then `seg.c` for a corner or `seg.c1, seg.c2`
for a smooth segment, then `seg.end_point`. -/
def segPts (start : Pt) : Seg → List Pt
  | .corner c e => [start, c, e]
  | .smooth c1 c2 e => [start, c1, c2, e]

/-- All points of one path touched by the scale loop, with the running
`start` advanced to `seg.end_point` after each segment (line 43). -/
def pathPts : Pt → List Seg → List Pt
  | _, [] => []
  | start, seg :: rest => segPts start seg ++ pathPts seg.endPoint rest

/-- All points of every path, in traversal order (lines 30-43). -/
def allPts (paths : List TracePath) : List Pt :=
  (paths.map (fun p => pathPts p.start_point p.segs)).flatten

/-- One axis of the scale estimate, line 44 resp. 45:
`max(vs) / d if d else 1.0`.  Python's `max` raises on an empty sequence,
modelled as `none`; note the guard only protects against `d = 0`, not
against an empty coordinate list. -/
def axisScale (d : ℚ) (vs : List ℚ) : Option ℚ :=
  if d = 0 then some 1
  else match vs.max? with
    | none => none
    | some m => some (m / d)

/-- The global scale, line 46: `(scale_x + scale_y) / 2.0 or 1.0`
(Python `or`: a result of `0.0` is replaced by `1.0`). -/
def scaleOf (w h : ℚ) (xs ys : List ℚ) : Option ℚ := do
  let sx ← axisScale w xs
  let sy ← axisScale h ys
  let s := (sx + sy) / 2
  pure (if s = 0 then 1 else s)

/-- A uniform 4-control-point cubic segment `(P0, P1, P2, P3)`. -/
structure Quad where
  p0 : Pt
  p1 : Pt
  p2 : Pt
  p3 : Pt
deriving DecidableEq, Repr

/-- The segment builder, lines 54-57: a corner yields
`(start, start, seg.c, seg.end_point)`, a smooth segment yields
`(start, seg.c1, seg.c2, seg.end_point)`. -/
def buildQuad (start : Pt) : Seg → Quad
  | .corner c e => ⟨start, start, c, e⟩
  | .smooth c1 c2 e => ⟨start, c1, c2, e⟩

/-- The coordinate normalizer `loc`, lines 59-62:
`x = pt.x / scale - cx`, `y = cy - pt.y / scale`. -/
def loc (scale cx cy : ℚ) (pt : Pt) : Pt :=
  ⟨pt.x / scale - cx, cy - pt.y / scale⟩

/-- `pts_pixel = [loc(p) for p in (p0, p1, p2, p3)]`, line 64. -/
def normQuad (scale cx cy : ℚ) (q : Quad) : Quad :=
  ⟨loc scale cx cy q.p0, loc scale cx cy q.p1,
   loc scale cx cy q.p2, loc scale cx cy q.p3⟩

/-- The rejection test of lines 67-68, `np.hypot(x3-x0, y3-y0) < min_length`,
expressed over ℚ without the square root: since `hypot` is nonnegative,
`hypot(dx, dy) < m` holds exactly when `0 < m` and `dx^2 + dy^2 < m^2`
(proved against `Real.sqrt` in `hypotLt_iff_sqrt_lt` below). -/
def hypotLt (dx dy m : ℚ) : Bool :=
  decide (0 < m) && decide (dx ^ 2 + dy ^ 2 < m ^ 2)

/-- The squared chord length of a quad, `(x3-x0)^2 + (y3-y0)^2`, line 66-67. -/
def chordSq (q : Quad) : ℚ :=
  (q.p3.x - q.p0.x) ^ 2 + (q.p3.y - q.p0.y) ^ 2

/-- Whether a raw quad survives the filter of lines 66-70 after
normalization. -/
def acceptQ (scale cx cy minLen : ℚ) (q : Quad) : Bool :=
  let nq := normQuad scale cx cy q
  !(hypotLt (nq.p3.x - nq.p0.x) (nq.p3.y - nq.p0.y) minLen)

/-- The Bernstein polynomial string template of lines 76-81 (and 82-87):
`(1-t)^3*{a}+3*(1-t)^2*t*{b}+3*(1-t)*t^2*{c}+t^3*{d}`, with the number
rendering `fmt` abstracting Python's float formatting. -/
def bern (fmt : ℚ → String) (a b c d : ℚ) : String :=
  "(1-t)^3*" ++ fmt a ++ "+3*(1-t)^2*t*" ++ fmt b ++
    "+3*(1-t)*t^2*" ++ fmt c ++ "+t^3*" ++ fmt d

/-- The fixed domain clause of line 88, the Python raw string
`\left\{0 \le t \le 1\right\}`. -/
def domainStr : String := "\\left\\\x7b0 \\le t \\le 1\\right\\\x7d"

/-- One emitted expression, line 89: `f"({Bx}, {By}) {domain}"`. -/
def exprString (fmt : ℚ → String) (q : Quad) : String :=
  "(" ++ bern fmt q.p0.x q.p1.x q.p2.x q.p3.x ++ ", " ++
    bern fmt q.p0.y q.p1.y q.p2.y q.p3.y ++ ") " ++ domainStr

/-- The per-path loop of lines 52-90: build the quad, normalize, filter by
chord length (advancing `start` on rejection, line 69), append the preview
quad and the expression string, advance `start` (line 90).  Returns
(expression strings, preview quads). -/
def processSegs (fmt : ℚ → String) (scale cx cy minLen : ℚ) :
    Pt → List Seg → List String × List Quad
  | _, [] => ([], [])
  | start, seg :: rest =>
    let nq := normQuad scale cx cy (buildQuad start seg)
    let tail := processSegs fmt scale cx cy minLen seg.endPoint rest
    if hypotLt (nq.p3.x - nq.p0.x) (nq.p3.y - nq.p0.y) minLen then
      tail
    else
      (exprString fmt nq :: tail.1, nq :: tail.2)

/-- The outer loop over paths, line 51: results concatenated in path order. -/
def processPaths (fmt : ℚ → String) (scale cx cy minLen : ℚ) :
    List TracePath → List String × List Quad
  | [] => ([], [])
  | p :: rest =>
    let here := processSegs fmt scale cx cy minLen p.start_point p.segs
    let tail := processPaths fmt scale cx cy minLen rest
    (here.1 ++ tail.1, here.2 ++ tail.2)

/-- `bitmap_to_desmos_beziers` after decoding and tracing: image dimensions
`w, h` (line 23), center `cx, cy = w/2, h/2` (line 24), scale estimation
(lines 30-46, `none` when Python raises), then the segment loops.  Returns
`(desmos_segments, preview_curves)` (line 92). -/
def bitmap_to_desmos_beziers (fmt : ℚ → String) (w h : ℚ)
    (paths : List TracePath) (minLen : ℚ) :
    Option (List String × List Quad) := do
  let cx := w / 2
  let cy := h / 2
  let xs := (allPts paths).map Pt.x
  let ys := (allPts paths).map Pt.y
  let scale ← scaleOf w h xs ys
  pure (processPaths fmt scale cx cy minLen paths)

/-- A concrete number rendering for witnesses. -/
def ratStr (q : ℚ) : String := toString q

/-- The numeric cubic evaluation of `draw_figure`, lines 107-108:
`(1-t)**3*pts[0] + 3*(1-t)**2*t*pts[1] + 3*(1-t)*t**2*pts[2] + t**3*pts[3]`. -/
def sampleCoord (a b c d t : ℚ) : ℚ :=
  (1 - t) ^ 3 * a + 3 * (1 - t) ^ 2 * t * b + 3 * (1 - t) * t ^ 2 * c + t ^ 3 * d

/-- The value denoted by the synthesized string template of lines 76-87 at a
parameter `t`: `(1-t)^3*{P0}+3*(1-t)^2*t*{P1}+3*(1-t)*t^2*{P2}+t^3*{P3}`. -/
def exprEvalCoord (a b c d t : ℚ) : ℚ :=
  (1 - t) ^ 3 * a + 3 * (1 - t) ^ 2 * t * b + 3 * (1 - t) * t ^ 2 * c + t ^ 3 * d

/-- The 50 preview parameters of line 106, `np.linspace(0, 1, 50)`:
`t_i = i / 49` for `i = 0, ..., 49`. -/
def linspace50 : List ℚ :=
  (List.range 50).map (fun i => (i : ℚ) / 49)

/-- The sequence of raw quads built by the loop of lines 52-90, with the
running `start` advanced to `seg.end_point` after every segment whether it
is accepted or rejected (lines 69 and 90). -/
def chainQuads : Pt → List Seg → List Quad
  | _, [] => []
  | start, seg :: rest => buildQuad start seg :: chainQuads seg.endPoint rest

/-- All raw quads of every path, in traversal order. -/
def allChain (paths : List TracePath) : List Quad :=
  (paths.map (fun p => chainQuads p.start_point p.segs)).flatten

/-- Modelled from the spec: `bitmap_to_desmos_beziers` has no `max_length`
parameter (the basic mode); §4.4 and §6 describe an optional upper bound
`chord_length ≤ max_length`, `+infinity` when absent.  `none` models the
unbounded case; `hypot(dx, dy) ≤ M` is `0 ≤ M` and `dx^2 + dy^2 ≤ M^2`. -/
def acceptUpper (maxLen : Option ℚ) (q : Quad) : Bool :=
  match maxLen with
  | none => true
  | some M => decide (0 ≤ M) && decide (chordSq q ≤ M ^ 2)

/-- Modelled from the spec: the §4.4 filter with both bounds,
`min_length ≤ chord_length ≤ max_length`; with `maxLen = none` it is
exactly the source filter `acceptQ`. -/
def acceptQB (scale cx cy minLen : ℚ) (maxLen : Option ℚ) (q : Quad) : Bool :=
  acceptQ scale cx cy minLen q && acceptUpper maxLen (normQuad scale cx cy q)

/-- The number of segments surviving the (generalized) filter. -/
def acceptedCount (scale cx cy minLen : ℚ) (maxLen : Option ℚ)
    (paths : List TracePath) : Nat :=
  ((allChain paths).filter (acceptQB scale cx cy minLen maxLen)).length

/-- A concrete trace for witnesses: one closed path on a 2×2 image, a
single corner segment from `(0,0)` through `(2,0)` to `(2,2)`. -/
def demoPaths : List TracePath :=
  [⟨⟨0, 0⟩, [Seg.corner ⟨2, 0⟩ ⟨2, 2⟩]⟩]

/-- The normalized quad the demo trace produces (scale 1, center (1,1)). -/
def demoNq : Quad :=
  ⟨⟨-1, 1⟩, ⟨-1, 1⟩, ⟨1, 1⟩, ⟨1, -1⟩⟩

/-- The expression string the demo trace produces. -/
def demoExprStr : String :=
  "((1-t)^3*-1+3*(1-t)^2*t*-1+3*(1-t)*t^2*1+t^3*1, (1-t)^3*1+3*(1-t)^2*t*1+3*(1-t)*t^2*1+t^3*-1) \\left\\\x7b0 \\le t \\le 1\\right\\\x7d"

/-- The domain clause the claim asserts, the plain text `{0 <= t <= 1}`. -/
def claimSuffix : String := "\x7b0 <= t <= 1\x7d"

/-! ### Structural lemmas about the pipeline -/

theorem buildQuad_p0 (start : Pt) (seg : Seg) : (buildQuad start seg).p0 = start := by
  cases seg <;> rfl

theorem buildQuad_p3 (start : Pt) (seg : Seg) :
    (buildQuad start seg).p3 = seg.endPoint := by
  cases seg <;> rfl

theorem chainQuads_map_p0 (start : Pt) (segs : List Seg) :
    (chainQuads start segs).map Quad.p0 = (start :: segs.map Seg.endPoint).dropLast := by
  induction segs generalizing start with
  | nil => rfl
  | cons seg rest ih =>
    simp only [chainQuads, List.map_cons, buildQuad_p0, ih, List.dropLast_cons₂]

theorem chainQuads_map_p3 (start : Pt) (segs : List Seg) :
    (chainQuads start segs).map Quad.p3 = segs.map Seg.endPoint := by
  induction segs generalizing start with
  | nil => rfl
  | cons seg rest ih => simp [chainQuads, buildQuad_p3, ih]

/-- The per-path loop equals build-the-chain, filter by chord length,
normalize and render. -/
theorem processSegs_eq (fmt : ℚ → String) (scale cx cy minLen : ℚ)
    (start : Pt) (segs : List Seg) :
    processSegs fmt scale cx cy minLen start segs =
      (((chainQuads start segs).filter (acceptQ scale cx cy minLen)).map
          (fun q => exprString fmt (normQuad scale cx cy q)),
       ((chainQuads start segs).filter (acceptQ scale cx cy minLen)).map
          (normQuad scale cx cy)) := by
  induction segs generalizing start with
  | nil => rfl
  | cons seg rest ih =>
    simp only [processSegs, chainQuads, List.filter_cons]
    have ihe := ih seg.endPoint
    cases h : hypotLt
        ((normQuad scale cx cy (buildQuad start seg)).p3.x -
          (normQuad scale cx cy (buildQuad start seg)).p0.x)
        ((normQuad scale cx cy (buildQuad start seg)).p3.y -
          (normQuad scale cx cy (buildQuad start seg)).p0.y) minLen with
    | false => simp [acceptQ, h, ihe]
    | true => simp [acceptQ, h, ihe]

/-- The whole pipeline body equals filter-and-render over all chained quads. -/
theorem processPaths_eq (fmt : ℚ → String) (scale cx cy minLen : ℚ)
    (paths : List TracePath) :
    processPaths fmt scale cx cy minLen paths =
      (((allChain paths).filter (acceptQ scale cx cy minLen)).map
          (fun q => exprString fmt (normQuad scale cx cy q)),
       ((allChain paths).filter (acceptQ scale cx cy minLen)).map
          (normQuad scale cx cy)) := by
  induction paths with
  | nil => rfl
  | cons p rest ih =>
    simp [processPaths, allChain, processSegs_eq, ih, List.filter_append]

/-- The rational rejection test is exactly `hypot(dx, dy) < m` over ℝ. -/
theorem hypotLt_iff_sqrt_lt (dx dy m : ℚ) :
    hypotLt dx dy m = true ↔
      Real.sqrt (((dx ^ 2 + dy ^ 2 : ℚ) : ℝ)) < (m : ℝ) := by
  unfold hypotLt
  rcases le_or_lt m 0 with hm | hm
  · have h1 : ¬ (0 : ℚ) < m := not_lt.mpr hm
    have h2 : ¬ Real.sqrt (((dx ^ 2 + dy ^ 2 : ℚ) : ℝ)) < (m : ℝ) := by
      refine not_lt.mpr (le_trans ?_ (Real.sqrt_nonneg _))
      exact_mod_cast hm
    rw [decide_eq_false h1, Bool.false_and]
    exact ⟨fun hx => absurd hx (by simp), fun hx => absurd hx h2⟩
  · have hm' : (0 : ℝ) < (m : ℝ) := by exact_mod_cast hm
    rw [Bool.and_eq_true, decide_eq_true_iff, decide_eq_true_iff,
      Real.sqrt_lt' hm']
    constructor
    · rintro ⟨-, h⟩
      exact_mod_cast h
    · intro h
      exact ⟨hm, by exact_mod_cast h⟩

/-- Acceptance is exactly `min_length ≤` the Euclidean distance between the
normalized endpoints. -/
theorem acceptQ_iff_le_sqrt (scale cx cy minLen : ℚ) (q : Quad) :
    acceptQ scale cx cy minLen q = true ↔
      (minLen : ℝ) ≤ Real.sqrt ((chordSq (normQuad scale cx cy q) : ℚ) : ℝ) := by
  unfold acceptQ
  rw [Bool.not_eq_true']
  rw [← Bool.not_eq_true, hypotLt_iff_sqrt_lt, not_lt]
  unfold chordSq
  rfl

/-- A filter with a pointwise stronger predicate keeps no more elements. -/
theorem length_filter_mono {α : Type} (p q : α → Bool)
    (h : ∀ a, p a = true → q a = true) (l : List α) :
    (l.filter p).length ≤ (l.filter q).length := by
  induction l with
  | nil => simp
  | cons a l ih =>
    cases hp : p a with
    | true =>
      have hq := h a hp
      simp only [List.filter_cons, hp, hq, if_true, List.length_cons]
      omega
    | false =>
      cases hq : q a <;> simp only [List.filter_cons, hp, hq] <;> simp <;> omega

/-- `max` of a nonempty rational list: existence, membership, upper bound. -/
theorem max?_spec {l : List ℚ} (h : l ≠ []) :
    ∃ m, l.max? = some m ∧ m ∈ l ∧ ∀ b ∈ l, b ≤ m := by
  obtain ⟨m, hm⟩ : ∃ m, l.max? = some m := by
    cases hl : l.max? with
    | none => exact absurd (List.max?_eq_none_iff.mp hl) h
    | some m => exact ⟨m, rfl⟩
  refine ⟨m, hm, List.max?_mem (fun a b => max_choice a b) hm, fun b hb => ?_⟩
  exact (List.max?_le_iff (fun a b c => max_le_iff) hm).mp le_rfl b hb

/-- `acceptQ` with its local binding unfolded. -/
theorem acceptQ_eq (scale cx cy minLen : ℚ) (q : Quad) :
    acceptQ scale cx cy minLen q =
      !(hypotLt ((normQuad scale cx cy q).p3.x - (normQuad scale cx cy q).p0.x)
        ((normQuad scale cx cy q).p3.y - (normQuad scale cx cy q).p0.y) minLen) := rfl

/-- Shrinking the rejection threshold only turns rejections into rejections. -/
theorem hypotLt_mono (dx dy : ℚ) {m m' : ℚ} (h : m ≤ m') :
    hypotLt dx dy m = true → hypotLt dx dy m' = true := by
  unfold hypotLt
  simp only [Bool.and_eq_true, decide_eq_true_eq]
  rintro ⟨hm, hs⟩
  exact ⟨lt_of_lt_of_le hm h, lt_of_lt_of_le hs (pow_le_pow_left₀ hm.le h 2)⟩

/-- A segment accepted at a larger `min_length` is accepted at a smaller one. -/
theorem acceptQ_anti (scale cx cy : ℚ) {m m' : ℚ} (h : m ≤ m') (q : Quad) :
    acceptQ scale cx cy m' q = true → acceptQ scale cx cy m q = true := by
  rw [acceptQ_eq, acceptQ_eq, Bool.not_eq_true', Bool.not_eq_true']
  intro h'
  cases hlt : hypotLt ((normQuad scale cx cy q).p3.x - (normQuad scale cx cy q).p0.x)
      ((normQuad scale cx cy q).p3.y - (normQuad scale cx cy q).p0.y) m with
  | false => rfl
  | true => exact absurd (hypotLt_mono _ _ h hlt) (by simp [h'])

/-! ### The claims -/

/-- C1: the claim says a successfully decoded image whose trace yields zero
paths/segments produces a valid, non-error empty result with scale
defaulting to 1.0.  In the code, whenever an image dimension is nonzero
(as for every decodable image, e.g. a uniform 10×10 one), `max` is applied
to the empty coordinate list and the call fails with an exception instead
of returning the empty result; only the unreachable `w = h = 0` case
short-circuits to the empty result. -/
theorem C1_empty_trace_fails :
    bitmap_to_desmos_beziers ratStr 10 10 [] 0 = none
    ∧ bitmap_to_desmos_beziers ratStr 0 0 [] 0 = some ([], []) := by
  exact ⟨by with_unfolding_all decide, by with_unfolding_all decide⟩

/-- C2 counterexample: on a concrete 2×2 one-segment trace the single
emitted expression is shown in full; its domain clause is the LaTeX
`\left\{0 \le t \le 1\right\}`, and the string does not end with the
claimed plain-text clause `{0 <= t <= 1}`. -/
theorem C2_domain_clause_counterexample :
    bitmap_to_desmos_beziers ratStr 2 2 demoPaths 0 = some ([demoExprStr], [demoNq])
    ∧ claimSuffix.data.isSuffixOf demoExprStr.data = false := by
  exact ⟨by with_unfolding_all decide, by decide⟩

/-- C2 (amended): every emitted expression string has the exact form
`({Bx}, {By}) \left\{0 \le t \le 1\right\}` with the two caret-notation
cubic Bernstein polynomials over the segment's normalized control-point
coordinates, followed by the fixed LaTeX domain clause
`\left\{0 \le t \le 1\right\}` rather than the plain `{0 <= t <= 1}`. -/
theorem C2_expression_shape (fmt : ℚ → String) (w h minLen : ℚ)
    (paths : List TracePath) (out : List String × List Quad)
    (hout : bitmap_to_desmos_beziers fmt w h paths minLen = some out)
    (s : String) (hs : s ∈ out.1) :
    ∃ q : Quad,
      s = "(" ++ ("(1-t)^3*" ++ fmt q.p0.x ++ "+3*(1-t)^2*t*" ++ fmt q.p1.x ++
            "+3*(1-t)*t^2*" ++ fmt q.p2.x ++ "+t^3*" ++ fmt q.p3.x) ++ ", " ++
          ("(1-t)^3*" ++ fmt q.p0.y ++ "+3*(1-t)^2*t*" ++ fmt q.p1.y ++
            "+3*(1-t)*t^2*" ++ fmt q.p2.y ++ "+t^3*" ++ fmt q.p3.y) ++ ") " ++
          "\\left\\\x7b0 \\le t \\le 1\\right\\\x7d" := by
  simp only [bitmap_to_desmos_beziers] at hout
  cases hscale : scaleOf w h ((allPts paths).map Pt.x) ((allPts paths).map Pt.y) with
  | none => rw [hscale] at hout; simp at hout
  | some sc =>
    rw [hscale] at hout
    have hout2 : processPaths fmt sc (w / 2) (h / 2) minLen paths = out := by
      simpa using hout
    rw [← hout2, processPaths_eq] at hs
    obtain ⟨q, hq, rfl⟩ := List.mem_map.mp hs
    exact ⟨normQuad sc (w / 2) (h / 2) q, rfl⟩

/-- Witness for the amended C2 at the concrete demo trace. -/
theorem C2_expression_shape_witness :
    ∃ q : Quad,
      demoExprStr = "(" ++ ("(1-t)^3*" ++ ratStr q.p0.x ++ "+3*(1-t)^2*t*" ++ ratStr q.p1.x ++
            "+3*(1-t)*t^2*" ++ ratStr q.p2.x ++ "+t^3*" ++ ratStr q.p3.x) ++ ", " ++
          ("(1-t)^3*" ++ ratStr q.p0.y ++ "+3*(1-t)^2*t*" ++ ratStr q.p1.y ++
            "+3*(1-t)*t^2*" ++ ratStr q.p2.y ++ "+t^3*" ++ ratStr q.p3.y) ++ ") " ++
          "\\left\\\x7b0 \\le t \\le 1\\right\\\x7d" :=
  C2_expression_shape ratStr 2 2 0 demoPaths ([demoExprStr], [demoNq])
    (by with_unfolding_all decide) demoExprStr (by decide)

/-- C3: for a nonzero-dimension image with a nonempty (nonnegative) raw
coordinate set, the scale the pipeline computes is
`((max(x)/w) + (max(y)/h)) / 2`, and when both raw maxima collapse to zero
it silently defaults to `1.0`, the call still succeeding. -/
theorem C3_scale_formula (w h : ℚ) (paths : List TracePath)
    (hw : 0 < w) (hh : 0 < h) (hne : allPts paths ≠ [])
    (hnn : ∀ p ∈ allPts paths, 0 ≤ p.x ∧ 0 ≤ p.y) :
    ∃ mx my,
      ((allPts paths).map Pt.x).max? = some mx ∧
      ((allPts paths).map Pt.y).max? = some my ∧
      scaleOf w h ((allPts paths).map Pt.x) ((allPts paths).map Pt.y) =
        some (if mx = 0 ∧ my = 0 then 1 else (mx / w + my / h) / 2) := by
  have hxne : (allPts paths).map Pt.x ≠ [] := by simpa using hne
  have hyne : (allPts paths).map Pt.y ≠ [] := by simpa using hne
  obtain ⟨mx, hmx, hmxmem, -⟩ := max?_spec hxne
  obtain ⟨my, hmy, hmymem, -⟩ := max?_spec hyne
  have hmx0 : 0 ≤ mx := by
    obtain ⟨p, hp, rfl⟩ := List.mem_map.mp hmxmem
    exact (hnn p hp).1
  have hmy0 : 0 ≤ my := by
    obtain ⟨p, hp, rfl⟩ := List.mem_map.mp hmymem
    exact (hnn p hp).2
  refine ⟨mx, my, hmx, hmy, ?_⟩
  have hcond : ((mx / w + my / h) / 2 = 0) ↔ (mx = 0 ∧ my = 0) := by
    have hxw : 0 ≤ mx / w := div_nonneg hmx0 hw.le
    have hyh : 0 ≤ my / h := div_nonneg hmy0 hh.le
    constructor
    · intro h0
      have hsum : mx / w + my / h = 0 := by
        rcases div_eq_zero_iff.mp h0 with h1 | h1
        · exact h1
        · norm_num at h1
      obtain ⟨hx0, hy0⟩ := (add_eq_zero_iff_of_nonneg hxw hyh).mp hsum
      constructor
      · rcases div_eq_zero_iff.mp hx0 with h1 | h1
        · exact h1
        · exact absurd h1 hw.ne'
      · rcases div_eq_zero_iff.mp hy0 with h1 | h1
        · exact h1
        · exact absurd h1 hh.ne'
    · rintro ⟨rfl, rfl⟩
      simp
  have hite : (if (mx / w + my / h) / 2 = 0 then (1 : ℚ) else (mx / w + my / h) / 2)
      = (if mx = 0 ∧ my = 0 then 1 else (mx / w + my / h) / 2) := by
    by_cases hc : (mx / w + my / h) / 2 = 0
    · rw [if_pos hc, if_pos (hcond.mp hc)]
    · rw [if_neg hc, if_neg (fun hc2 => hc (hcond.mpr hc2))]
  simp only [scaleOf, axisScale, if_neg hw.ne', if_neg hh.ne', hmx, hmy,
    Option.pure_def, Option.bind_eq_bind, Option.some_bind, Option.some.injEq]
  exact hite

/-- Witness for C3 at the concrete demo trace on a 2×2 image. -/
theorem C3_scale_formula_witness :
    ∃ mx my,
      ((allPts demoPaths).map Pt.x).max? = some mx ∧
      ((allPts demoPaths).map Pt.y).max? = some my ∧
      scaleOf 2 2 ((allPts demoPaths).map Pt.x) ((allPts demoPaths).map Pt.y) =
        some (if mx = 0 ∧ my = 0 then 1 else (mx / 2 + my / 2) / 2) :=
  C3_scale_formula 2 2 demoPaths (by norm_num) (by norm_num) (by decide)
    (by with_unfolding_all decide)

/-- C4: normalization is the pure map `x = raw.x/scale − cx`,
`y = cy − raw.y/scale`; a raw point at the image top (`raw.y = 0`) maps to
positive normalized `y` whenever `cy > 0`; and the pipeline applies `loc`
identically, with the one scale, to all four control points of every
segment of every path. -/
theorem C4_normalizer_map (scale cx cy px py : ℚ) :
    loc scale cx cy ⟨px, py⟩ = ⟨px / scale - cx, cy - py / scale⟩
    ∧ (py = 0 → 0 < cy → 0 < (loc scale cx cy ⟨px, py⟩).y)
    ∧ ∀ (fmt : ℚ → String) (minLen : ℚ) (start : Pt) (segs : List Seg),
        (processSegs fmt scale cx cy minLen start segs).2 =
          ((chainQuads start segs).filter (acceptQ scale cx cy minLen)).map
            (fun q => ⟨loc scale cx cy q.p0, loc scale cx cy q.p1,
                       loc scale cx cy q.p2, loc scale cx cy q.p3⟩) := by
  refine ⟨rfl, ?_, ?_⟩
  · rintro rfl hcy
    simpa [loc] using hcy
  · intro fmt minLen start segs
    rw [processSegs_eq]
    rfl

/-- Witness for C4: the top-of-image point `(5, 0)` lands at positive `y`. -/
theorem C4_normalizer_map_witness : 0 < (loc 1 1 1 ⟨5, 0⟩).y :=
  (C4_normalizer_map 1 1 1 5 0).2.1 rfl (by norm_num)

/-- C5: the segment builder always yields exactly 4 control points: a
corner gives `(start, start, corner_point, end)` with `P0 = P1`, a smooth
segment gives `(start, control1, control2, end)` unchanged, and the running
`start` of each quad is the previous segment's (or the path's) end point. -/
theorem C5_builder_shape (start c c1 c2 e : Pt) :
    buildQuad start (Seg.corner c e) = ⟨start, start, c, e⟩
    ∧ (buildQuad start (Seg.corner c e)).p1 = (buildQuad start (Seg.corner c e)).p0
    ∧ buildQuad start (Seg.smooth c1 c2 e) = ⟨start, c1, c2, e⟩
    ∧ ∀ segs : List Seg,
        (chainQuads start segs).map Quad.p0 = (start :: segs.map Seg.endPoint).dropLast :=
  ⟨rfl, rfl, rfl, fun segs => chainQuads_map_p0 start segs⟩

/-- C6: a normalized segment is accepted exactly when `min_length` is at
most the Euclidean distance between the normalized endpoints `P0` and `P3`
(the chord, not the arc length; there is no upper bound in the basic mode,
so `max_length = +∞` is vacuous), and a rejected segment contributes
neither an expression string nor a preview quad. -/
theorem C6_chord_filter (fmt : ℚ → String) (scale cx cy minLen : ℚ)
    (start : Pt) (segs : List Seg) :
    (∀ q : Quad,
        acceptQ scale cx cy minLen q = true ↔
          (minLen : ℝ) ≤ Real.sqrt ((chordSq (normQuad scale cx cy q) : ℚ) : ℝ))
    ∧ processSegs fmt scale cx cy minLen start segs =
        (((chainQuads start segs).filter (acceptQ scale cx cy minLen)).map
            (fun q => exprString fmt (normQuad scale cx cy q)),
         ((chainQuads start segs).filter (acceptQ scale cx cy minLen)).map
            (normQuad scale cx cy)) :=
  ⟨fun q => acceptQ_iff_le_sqrt scale cx cy minLen q,
   processSegs_eq fmt scale cx cy minLen start segs⟩

/-- C7: evaluating the cubic Bernstein polynomial of any accepted segment
of the pipeline output at `t = 0` gives the normalized `P0` and at `t = 1`
gives the normalized `P3`, exactly, in exact arithmetic. -/
theorem C7_endpoint_roundtrip (fmt : ℚ → String) (w h minLen : ℚ)
    (paths : List TracePath) (out : List String × List Quad)
    (hout : bitmap_to_desmos_beziers fmt w h paths minLen = some out)
    (nq : Quad) (hnq : nq ∈ out.2) :
    exprEvalCoord nq.p0.x nq.p1.x nq.p2.x nq.p3.x 0 = nq.p0.x
    ∧ exprEvalCoord nq.p0.y nq.p1.y nq.p2.y nq.p3.y 0 = nq.p0.y
    ∧ exprEvalCoord nq.p0.x nq.p1.x nq.p2.x nq.p3.x 1 = nq.p3.x
    ∧ exprEvalCoord nq.p0.y nq.p1.y nq.p2.y nq.p3.y 1 = nq.p3.y := by
  refine ⟨?_, ?_, ?_, ?_⟩ <;> norm_num [exprEvalCoord]

/-- Witness for C7 at the demo trace's single accepted segment. -/
theorem C7_endpoint_roundtrip_witness :
    exprEvalCoord demoNq.p0.x demoNq.p1.x demoNq.p2.x demoNq.p3.x 0 = demoNq.p0.x
    ∧ exprEvalCoord demoNq.p0.y demoNq.p1.y demoNq.p2.y demoNq.p3.y 0 = demoNq.p0.y
    ∧ exprEvalCoord demoNq.p0.x demoNq.p1.x demoNq.p2.x demoNq.p3.x 1 = demoNq.p3.x
    ∧ exprEvalCoord demoNq.p0.y demoNq.p1.y demoNq.p2.y demoNq.p3.y 1 = demoNq.p3.y :=
  C7_endpoint_roundtrip ratStr 2 2 0 demoPaths ([demoExprStr], [demoNq])
    (by with_unfolding_all decide) demoNq (by with_unfolding_all decide)

/-- C8: raising `min_length` never increases the accepted-segment count,
and lowering the (spec-modelled, absent from the code) `max_length` never
increases it; with `max_length = +∞` (`none`) the generalized filter is
exactly the source filter, and the emitted expression and preview lists of
a successful pipeline run both have exactly the accepted-segment count. -/
theorem C8_filter_monotone (scale cx cy m m' M M' : ℚ) (paths : List TracePath)
    (fmt : ℚ → String) (w h : ℚ) :
    (∀ mL : Option ℚ, m ≤ m' →
        acceptedCount scale cx cy m' mL paths ≤ acceptedCount scale cx cy m mL paths)
    ∧ (M' ≤ M →
        acceptedCount scale cx cy m (some M') paths ≤
          acceptedCount scale cx cy m (some M) paths)
    ∧ acceptedCount scale cx cy m (some M) paths ≤ acceptedCount scale cx cy m none paths
    ∧ (∀ q : Quad, acceptQB scale cx cy m none q = acceptQ scale cx cy m q)
    ∧ (∀ s out,
        scaleOf w h ((allPts paths).map Pt.x) ((allPts paths).map Pt.y) = some s →
        bitmap_to_desmos_beziers fmt w h paths m = some out →
        out.1.length = acceptedCount s (w / 2) (h / 2) m none paths
        ∧ out.2.length = acceptedCount s (w / 2) (h / 2) m none paths) := by
  refine ⟨?_, ?_, ?_, ?_, ?_⟩
  · intro mL hmm'
    unfold acceptedCount
    refine length_filter_mono _ _ (fun q hq => ?_) _
    simp only [acceptQB, Bool.and_eq_true] at hq ⊢
    exact ⟨acceptQ_anti scale cx cy hmm' q hq.1, hq.2⟩
  · intro hMM'
    unfold acceptedCount
    refine length_filter_mono _ _ (fun q hq => ?_) _
    simp only [acceptQB, Bool.and_eq_true] at hq ⊢
    refine ⟨hq.1, ?_⟩
    have h2 := hq.2
    simp only [acceptUpper, Bool.and_eq_true, decide_eq_true_eq] at h2 ⊢
    exact ⟨le_trans h2.1 hMM', le_trans h2.2 (pow_le_pow_left₀ h2.1 hMM' 2)⟩
  · unfold acceptedCount
    refine length_filter_mono _ _ (fun q hq => ?_) _
    simp only [acceptQB, Bool.and_eq_true] at hq ⊢
    exact ⟨hq.1, rfl⟩
  · intro q
    simp [acceptQB, acceptUpper]
  · intro s out hscale hout
    simp only [bitmap_to_desmos_beziers] at hout
    rw [hscale] at hout
    have hout2 : processPaths fmt s (w / 2) (h / 2) m paths = out := by
      simpa using hout
    have hfun : acceptQB s (w / 2) (h / 2) m none = acceptQ s (w / 2) (h / 2) m := by
      funext q
      simp [acceptQB, acceptUpper]
    rw [← hout2, processPaths_eq]
    unfold acceptedCount
    rw [hfun]
    constructor <;> simp

/-- Witness for C8: at the demo trace, `min_length = 5` rejects the single
segment that `min_length = 0` accepts, and the count is monotone. -/
theorem C8_filter_monotone_witness :
    acceptedCount 1 1 1 5 none demoPaths = 0
    ∧ acceptedCount 1 1 1 0 none demoPaths = 1
    ∧ acceptedCount 1 1 1 5 none demoPaths ≤ acceptedCount 1 1 1 0 none demoPaths :=
  ⟨by with_unfolding_all decide, by with_unfolding_all decide,
   (C8_filter_monotone 1 1 1 0 5 0 0 demoPaths ratStr 2 2).1 none (by norm_num)⟩

/-- C9: the preview sampler uses exactly 50 parameters uniformly spaced
over `[0, 1]` inclusive (`t_0 = 0`, `t_49 = 1`, consecutive gap `1/49`),
and its numeric cubic agrees with the value of the synthesized symbolic
expression at every such `t` for every accepted segment. -/
theorem C9_preview_sampler :
    linspace50.length = 50
    ∧ linspace50.getD 0 0 = 0
    ∧ linspace50.getD 49 0 = 1
    ∧ (∀ i, i < 49 → linspace50.getD (i + 1) 0 - linspace50.getD i 0 = 1 / 49)
    ∧ (∀ a b c d t : ℚ, sampleCoord a b c d t = exprEvalCoord a b c d t)
    ∧ ∀ (fmt : ℚ → String) (scale cx cy minLen : ℚ) (start : Pt) (segs : List Seg)
        (q : Quad), q ∈ (processSegs fmt scale cx cy minLen start segs).2 →
        ∀ t ∈ linspace50,
          sampleCoord q.p0.x q.p1.x q.p2.x q.p3.x t =
              exprEvalCoord q.p0.x q.p1.x q.p2.x q.p3.x t
          ∧ sampleCoord q.p0.y q.p1.y q.p2.y q.p3.y t =
              exprEvalCoord q.p0.y q.p1.y q.p2.y q.p3.y t := by
  refine ⟨rfl, by with_unfolding_all decide, by with_unfolding_all decide,
    by with_unfolding_all decide, fun a b c d t => rfl, ?_⟩
  intro fmt scale cx cy minLen start segs q hq t ht
  exact ⟨rfl, rfl⟩

/-- Witness for C9: the first sampling gap is `1/49`. -/
theorem C9_preview_sampler_witness :
    linspace50.getD 1 0 - linspace50.getD 0 0 = 1 / 49 :=
  C9_preview_sampler.2.2.2.1 0 (by norm_num)

/-- C10: rejection does not disturb the traversal: the quads the loop
builds are the same chain for every `min_length` (filtering only selects
among them); the `P0` of each built quad is the path's `start_point` for
the first segment and the previous segment's `end_point` afterwards, and
each quad's `P3` is its own segment's `end_point`. -/
theorem C10_traversal_chain (fmt : ℚ → String) (scale cx cy minLen : ℚ)
    (start : Pt) (segs : List Seg) :
    (chainQuads start segs).map Quad.p0 = (start :: segs.map Seg.endPoint).dropLast
    ∧ (chainQuads start segs).map Quad.p3 = segs.map Seg.endPoint
    ∧ (chainQuads start segs).length = segs.length
    ∧ processSegs fmt scale cx cy minLen start segs =
        (((chainQuads start segs).filter (acceptQ scale cx cy minLen)).map
            (fun q => exprString fmt (normQuad scale cx cy q)),
         ((chainQuads start segs).filter (acceptQ scale cx cy minLen)).map
            (normQuad scale cx cy)) := by
  refine ⟨chainQuads_map_p0 start segs, chainQuads_map_p3 start segs, ?_,
    processSegs_eq fmt scale cx cy minLen start segs⟩
  have h := congrArg List.length (chainQuads_map_p3 start segs)
  simpa using h

end ImageToDesmos
